import Mathlib

/-!
Verification of the cryptocurrency dashboard pipeline (`src/streamlit_app.py`).

The script is a linear pandas pipeline: fetch price samples, resample them
into 15-minute OHLC candles, compute a 14-period RSI over the candle closes,
fit an ARIMA model and forecast 8 steps, then derive a peak-forecast callout
and a BUY/SELL/HOLD recommendation.

Shallow embedding conventions:
* Prices are rationals (`ℚ`); the float special values NaN, +inf and -inf that
  pandas produces (leading `diff` entry, division by a zero rolling loss,
  rolling windows with insufficient history) are modelled explicitly by the
  type `RVal`, whose arithmetic follows IEEE-754 on the operations the script
  uses.  On every concrete value the claims touch, the binary-float
  computation is exact, so rational arithmetic coincides with it.
* Timestamps are natural numbers counted in minutes.  The millisecond-to-
  datetime conversion and the fixed GMT-3 shift of line 61 are order- and
  alignment-preserving, so they are folded into the timestamp value.
* Exceptions of the Python run (`IndexError` from `.iloc[-1]` on an empty
  frame, `ValueError` from `idxmax` on an empty series) become `Except.error`
  with the library's message text.
* The ARIMA estimator is an external collaborator; the pipeline is
  parameterised by an opaque `forecastFn : List ℚ → List ℚ`.
-/

attribute [local semireducible] Rat.add Rat.sub Rat.mul Rat.inv

/-- Float-like value: an exact rational, NaN, or a signed infinity.  Models the
entries of the pandas series in the RSI and recommendation computations. -/
inductive RVal where
  | nan : RVal
  | inf : RVal
  | ninf : RVal
  | val : ℚ → RVal
deriving DecidableEq, Repr

/-- IEEE-754 addition on `RVal` (only the cases float addition can reach). -/
def RVal.add : RVal → RVal → RVal
  | nan, _ => nan
  | _, nan => nan
  | inf, ninf => nan
  | ninf, inf => nan
  | inf, _ => inf
  | _, inf => inf
  | ninf, _ => ninf
  | _, ninf => ninf
  | val a, val b => val (a + b)

/-- IEEE-754 negation on `RVal`. -/
def RVal.neg : RVal → RVal
  | nan => nan
  | inf => ninf
  | ninf => inf
  | val a => val (-a)

/-- IEEE-754 subtraction, `a - b = a + (-b)`. -/
def RVal.sub (a b : RVal) : RVal := a.add b.neg

/-- IEEE-754 division on `RVal`; a nonzero rational divided by zero gives a
signed infinity and `0 / 0` gives NaN, exactly as numpy float division does in
`rs = gain / loss`. -/
def RVal.div : RVal → RVal → RVal
  | nan, _ => nan
  | _, nan => nan
  | inf, inf => nan
  | inf, ninf => nan
  | ninf, inf => nan
  | ninf, ninf => nan
  | inf, val b => if b < 0 then ninf else inf
  | ninf, val b => if b < 0 then inf else ninf
  | val _, inf => val 0
  | val _, ninf => val 0
  | val a, val b =>
    if b = 0 then (if a = 0 then nan else if 0 < a then inf else ninf)
    else val (a / b)

/-- IEEE-754 strict `<` as a Boolean: any comparison involving NaN is false. -/
def RVal.blt : RVal → RVal → Bool
  | nan, _ => false
  | _, nan => false
  | inf, _ => false
  | ninf, ninf => false
  | ninf, _ => true
  | val _, inf => true
  | val _, ninf => false
  | val a, val b => decide (a < b)

/-- IEEE-754 strict `>` as a Boolean. -/
def RVal.bgt (a b : RVal) : Bool := RVal.blt b a

/-- Successive differences of a rational series, `x[i] - x[i-1]`
(the numeric part of `Series.diff`, one element shorter than the input). -/
def qdiffs (xs : List ℚ) : List ℚ := List.zipWith (fun a b => b - a) xs xs.tail

/-- Embedding of `Series.diff()` (line 81): the first entry is NaN, the rest
are the successive differences. -/
def seriesDiff (xs : List ℚ) : List RVal :=
  match xs with
  | [] => []
  | _ :: _ => RVal.nan :: (qdiffs xs).map RVal.val

/-- Embedding of `delta.where(delta > 0, 0)` (line 82): keep entries strictly
greater than zero, replace every other entry — including the leading NaN,
for which the comparison is false — by 0. -/
def whereGtZero (xs : List RVal) : List RVal :=
  xs.map (fun v => if (RVal.val 0).blt v then v else RVal.val 0)

/-- Embedding of `delta.where(delta < 0, 0)` (line 83). -/
def whereLtZero (xs : List RVal) : List RVal :=
  xs.map (fun v => if v.blt (RVal.val 0) then v else RVal.val 0)

/-- Elementwise negation of a series (the unary minus on line 83). -/
def negSeries (xs : List RVal) : List RVal := xs.map RVal.neg

/-- Mean of a window, as `rolling(..).mean()` computes it: sum divided by the
window size; the empty window yields `0 / 0 = NaN`. -/
def windowMean (l : List RVal) : RVal :=
  RVal.div (l.foldl RVal.add (RVal.val 0)) (RVal.val l.length)

/-- Embedding of `.rolling(window=w).mean()` with the default
`min_periods = w`: entry `i` is the mean of entries `i-w+1 .. i` when `w`
entries are available, NaN before that. -/
def rollingMean (w : ℕ) (xs : List RVal) : List RVal :=
  (List.range xs.length).map (fun i =>
    if w ≤ i + 1 then windowMean ((xs.drop (i + 1 - w)).take w) else RVal.nan)

/-- RSI window length (line 80). -/
def window_length : ℕ := 14

/-- Rolling average gain (line 82). -/
def gainSeries (closes : List ℚ) : List RVal :=
  rollingMean window_length (whereGtZero (seriesDiff closes))

/-- Rolling average loss (line 83). -/
def lossSeries (closes : List ℚ) : List RVal :=
  rollingMean window_length (negSeries (whereLtZero (seriesDiff closes)))

/-- Relative strength `rs = gain / loss` (line 84), elementwise. -/
def rsSeries (closes : List ℚ) : List RVal :=
  List.zipWith RVal.div (gainSeries closes) (lossSeries closes)

/-- Pointwise RSI formula `100 - (100 / (1 + rs))` (line 85). -/
def rsiOf (r : RVal) : RVal :=
  (RVal.val 100).sub ((RVal.val 100).div ((RVal.val 1).add r))

/-- The RSI series `ohlc["rsi"] = 100 - (100 / (1 + rs))` (line 85). -/
def rsiSeries (closes : List ℚ) : List RVal :=
  (rsSeries closes).map rsiOf

/-- C3: on the 16 strictly increasing closes 100,101,...,115 the rolling
average loss is 0 and the rolling average gain positive, so the ratio `rs`
at the last index is `+inf` rather than a division fault, and the computed
latest RSI equals exactly 100. -/
theorem c3_increasing_closes_latest_rsi_100 :
    (rsSeries [100, 101, 102, 103, 104, 105, 106, 107, 108, 109, 110, 111,
      112, 113, 114, 115]).getLast? = some RVal.inf ∧
    (rsiSeries [100, 101, 102, 103, 104, 105, 106, 107, 108, 109, 110, 111,
      112, 113, 114, 115]).getLast? = some (RVal.val 100) := by
  constructor
  · decide
  · decide

/-! ### Basic structural lemmas about the embedded series operations -/

theorem length_qdiffs (xs : List ℚ) : (qdiffs xs).length = xs.length - 1 := by
  cases xs with
  | nil => rfl
  | cons x t => simp [qdiffs, List.length_zipWith]

theorem length_seriesDiff (xs : List ℚ) : (seriesDiff xs).length = xs.length := by
  cases xs with
  | nil => rfl
  | cons x t => simp [seriesDiff, length_qdiffs]

theorem length_whereGtZero (xs : List RVal) : (whereGtZero xs).length = xs.length := by
  simp [whereGtZero]

theorem length_whereLtZero (xs : List RVal) : (whereLtZero xs).length = xs.length := by
  simp [whereLtZero]

theorem length_negSeries (xs : List RVal) : (negSeries xs).length = xs.length := by
  simp [negSeries]

theorem length_rollingMean (w : ℕ) (xs : List RVal) :
    (rollingMean w xs).length = xs.length := by
  simp [rollingMean]

theorem length_gainSeries (closes : List ℚ) :
    (gainSeries closes).length = closes.length := by
  simp [gainSeries, length_rollingMean, length_whereGtZero, length_seriesDiff]

theorem length_lossSeries (closes : List ℚ) :
    (lossSeries closes).length = closes.length := by
  simp [lossSeries, length_rollingMean, length_negSeries, length_whereLtZero,
    length_seriesDiff]

theorem length_rsSeries (closes : List ℚ) :
    (rsSeries closes).length = closes.length := by
  simp [rsSeries, List.length_zipWith, length_gainSeries, length_lossSeries]

theorem length_rsiSeries (closes : List ℚ) :
    (rsiSeries closes).length = closes.length := by
  simp [rsiSeries, length_rsSeries]

theorem get?_zipWith_eq_some {α β γ : Type} {f : α → β → γ} :
    ∀ {l₁ : List α} {l₂ : List β} {i : ℕ} {c : γ},
      (List.zipWith f l₁ l₂).get? i = some c ↔
        ∃ a b, l₁.get? i = some a ∧ l₂.get? i = some b ∧ f a b = c := by
  intro l₁
  induction l₁ with
  | nil => intro l₂ i c; simp
  | cons a t ih =>
    intro l₂ i c
    cases l₂ with
    | nil => simp
    | cons b t₂ =>
      cases i with
      | zero => simp [eq_comm]
      | succ j => simpa using ih

theorem rollingMean_get? (w : ℕ) (xs : List RVal) (i : ℕ) (h : i < xs.length) :
    (rollingMean w xs).get? i =
      some (if w ≤ i + 1 then windowMean ((xs.drop (i + 1 - w)).take w)
            else RVal.nan) := by
  simp only [rollingMean, List.get?_map]
  rw [List.get?_range h]
  rfl

/-! ### Classification of the entries of the RSI intermediate series -/

theorem seriesDiff_entries {closes : List ℚ} {v : RVal} (hv : v ∈ seriesDiff closes) :
    v = RVal.nan ∨ ∃ q, v = RVal.val q := by
  cases closes with
  | nil => simp [seriesDiff] at hv
  | cons x t =>
    simp only [seriesDiff, List.mem_cons, List.mem_map] at hv
    rcases hv with h | ⟨q, _, h⟩
    · exact Or.inl h
    · exact Or.inr ⟨q, h.symm⟩

theorem whereGtZero_entries {closes : List ℚ} {v : RVal}
    (hv : v ∈ whereGtZero (seriesDiff closes)) :
    ∃ q, v = RVal.val q ∧ 0 ≤ q := by
  simp only [whereGtZero, List.mem_map] at hv
  obtain ⟨w, hw, rfl⟩ := hv
  rcases seriesDiff_entries hw with rfl | ⟨q, rfl⟩
  · exact ⟨0, by simp [RVal.blt], le_refl 0⟩
  · by_cases hq : (0 : ℚ) < q
    · exact ⟨q, by simp [RVal.blt, hq], le_of_lt hq⟩
    · exact ⟨0, by simp [RVal.blt, hq], le_refl 0⟩

theorem lossRaw_entries {closes : List ℚ} {v : RVal}
    (hv : v ∈ negSeries (whereLtZero (seriesDiff closes))) :
    ∃ q, v = RVal.val q ∧ 0 ≤ q := by
  simp only [negSeries, whereLtZero, List.mem_map] at hv
  obtain ⟨w, ⟨u, hu, rfl⟩, rfl⟩ := hv
  rcases seriesDiff_entries hu with rfl | ⟨q, rfl⟩
  · exact ⟨0, by simp [RVal.blt, RVal.neg], le_refl 0⟩
  · by_cases hq : q < 0
    · exact ⟨-q, by simp [RVal.blt, RVal.neg, hq], by linarith⟩
    · exact ⟨0, by simp [RVal.blt, RVal.neg, hq], le_refl 0⟩

theorem foldl_add_val :
    ∀ (l : List RVal), (∀ v ∈ l, ∃ q, v = RVal.val q ∧ 0 ≤ q) →
      ∀ a : ℚ, 0 ≤ a → ∃ s, l.foldl RVal.add (RVal.val a) = RVal.val s ∧ 0 ≤ s := by
  intro l
  induction l with
  | nil => exact fun _ a ha => ⟨a, rfl, ha⟩
  | cons v t ih =>
    intro h a ha
    obtain ⟨q, rfl, hq⟩ := h v (by simp)
    have hrec := ih (fun w hw => h w (by simp [hw])) (a + q) (by linarith)
    simpa [RVal.add] using hrec

theorem windowMean_val {l : List RVal} (hne : l ≠ [])
    (h : ∀ v ∈ l, ∃ q, v = RVal.val q ∧ 0 ≤ q) :
    ∃ q, windowMean l = RVal.val q ∧ 0 ≤ q := by
  obtain ⟨s, hs, hs0⟩ := foldl_add_val l h 0 le_rfl
  have hlen : ((l.length : ℚ)) ≠ 0 := by
    have : 0 < l.length := List.length_pos.mpr hne
    positivity
  refine ⟨s / l.length, ?_, div_nonneg hs0 (by positivity)⟩
  simp [windowMean, hs, RVal.div, hlen]

theorem gainSeries_entries {closes : List ℚ} {i : ℕ} {r : RVal}
    (h : (gainSeries closes).get? i = some r) :
    r = RVal.nan ∨ ∃ q, r = RVal.val q ∧ 0 ≤ q := by
  have hi : i < (whereGtZero (seriesDiff closes)).length := by
    have hlt : i < (gainSeries closes).length := by
      by_contra hge
      rw [List.get?_eq_none.mpr (le_of_not_lt hge)] at h
      exact Option.noConfusion h
    rwa [length_gainSeries, ← length_seriesDiff, ← length_whereGtZero] at hlt
  rw [gainSeries, rollingMean_get? window_length _ i hi] at h
  have h' := Option.some.inj h
  by_cases hw : window_length ≤ i + 1
  · rw [if_pos hw] at h'
    have hne : (((whereGtZero (seriesDiff closes)).drop
        (i + 1 - window_length)).take window_length) ≠ [] := by
      have hwl : window_length = 14 := rfl
      have hdrop : 0 < ((whereGtZero (seriesDiff closes)).drop
          (i + 1 - window_length)).length := by
        rw [List.length_drop]; omega
      rw [← List.length_pos, List.length_take]
      have : 0 < window_length := by norm_num [window_length]
      omega
    obtain ⟨q, hq, hq0⟩ := windowMean_val hne (fun v hv =>
      whereGtZero_entries (List.mem_of_mem_drop (List.mem_of_mem_take hv)))
    exact Or.inr ⟨q, h' ▸ hq, hq0⟩
  · rw [if_neg hw] at h'
    exact Or.inl h'.symm

theorem lossSeries_entries {closes : List ℚ} {i : ℕ} {r : RVal}
    (h : (lossSeries closes).get? i = some r) :
    r = RVal.nan ∨ ∃ q, r = RVal.val q ∧ 0 ≤ q := by
  have hi : i < (negSeries (whereLtZero (seriesDiff closes))).length := by
    have hlt : i < (lossSeries closes).length := by
      by_contra hge
      rw [List.get?_eq_none.mpr (le_of_not_lt hge)] at h
      exact Option.noConfusion h
    rwa [length_lossSeries, ← length_seriesDiff, ← length_whereLtZero,
      ← length_negSeries] at hlt
  rw [lossSeries, rollingMean_get? window_length _ i hi] at h
  have h' := Option.some.inj h
  by_cases hw : window_length ≤ i + 1
  · rw [if_pos hw] at h'
    have hne : (((negSeries (whereLtZero (seriesDiff closes))).drop
        (i + 1 - window_length)).take window_length) ≠ [] := by
      have hwl : window_length = 14 := rfl
      have hdrop : 0 < ((negSeries (whereLtZero (seriesDiff closes))).drop
          (i + 1 - window_length)).length := by
        rw [List.length_drop]; omega
      rw [← List.length_pos, List.length_take]
      have : 0 < window_length := by norm_num [window_length]
      omega
    obtain ⟨q, hq, hq0⟩ := windowMean_val hne (fun v hv =>
      lossRaw_entries (List.mem_of_mem_drop (List.mem_of_mem_take hv)))
    exact Or.inr ⟨q, h' ▸ hq, hq0⟩
  · rw [if_neg hw] at h'
    exact Or.inl h'.symm

/-! ### Pointwise computation lemmas for the RSI formula -/

theorem div_nan_left (x : RVal) : RVal.div RVal.nan x = RVal.nan := by
  cases x <;> rfl

theorem div_nan_right (x : RVal) : RVal.div x RVal.nan = RVal.nan := by
  cases x <;> rfl

theorem rsiOf_nan : rsiOf RVal.nan = RVal.nan := rfl

theorem rsiOf_inf : rsiOf RVal.inf = RVal.val 100 := by
  show RVal.val (100 + -0) = RVal.val 100
  norm_num

theorem rsiOf_ninf : rsiOf RVal.ninf = RVal.val 100 := by
  show RVal.val (100 + -0) = RVal.val 100
  norm_num

theorem rsiOf_val (x : ℚ) (hx : 0 ≤ x) :
    rsiOf (RVal.val x) = RVal.val (100 - 100 / (1 + x)) := by
  have h1 : (1 : ℚ) + x ≠ 0 := by linarith
  have h3 : (RVal.val 1).add (RVal.val x) = RVal.val (1 + x) := rfl
  have h2 : RVal.div (RVal.val 100) (RVal.val (1 + x)) = RVal.val (100 / (1 + x)) := by
    simp [RVal.div, h1]
  show (RVal.val 100).sub ((RVal.val 100).div ((RVal.val 1).add (RVal.val x))) = _
  rw [h3, h2]
  show RVal.val (100 + -(100 / (1 + x))) = _
  congr 1
  ring

/-- C5: for every candle close-price sequence, every RSI entry is either NaN
(undefined) or a rational value between 0 and 100; in particular every
defined RSI value satisfies `0 ≤ rsi ≤ 100`. -/
theorem c5_rsi_defined_in_range (closes : List ℚ) (i : ℕ) (r : RVal)
    (h : (rsiSeries closes).get? i = some r) :
    r = RVal.nan ∨ ∃ q, r = RVal.val q ∧ 0 ≤ q ∧ q ≤ 100 := by
  rw [rsiSeries, List.get?_map] at h
  cases hr : (rsSeries closes).get? i with
  | none => rw [hr] at h; exact absurd h (by simp)
  | some rs0 =>
    rw [hr, Option.map_some'] at h
    have hfr := Option.some.inj h
    obtain ⟨ga, lb, hga, hlb, hdiv⟩ := get?_zipWith_eq_some.mp hr
    rcases gainSeries_entries hga with rfl | ⟨a, rfl, ha⟩
    · left; rw [← hfr, ← hdiv, div_nan_left, rsiOf_nan]
    rcases lossSeries_entries hlb with rfl | ⟨b, rfl, hb⟩
    · left; rw [← hfr, ← hdiv, div_nan_right, rsiOf_nan]
    by_cases hb0 : b = 0
    · subst hb0
      by_cases ha0 : a = 0
      · subst ha0
        left
        have hdd : RVal.div (RVal.val 0) (RVal.val 0) = RVal.nan := by
          simp [RVal.div]
        rw [← hfr, ← hdiv, hdd, rsiOf_nan]
      · right
        have hapos : 0 < a := lt_of_le_of_ne ha (Ne.symm ha0)
        have hdd : RVal.div (RVal.val a) (RVal.val 0) = RVal.inf := by
          simp [RVal.div, ha0, hapos]
        exact ⟨100, by rw [← hfr, ← hdiv, hdd, rsiOf_inf], by norm_num, le_refl _⟩
    · right
      have hx : RVal.div (RVal.val a) (RVal.val b) = RVal.val (a / b) := by
        simp [RVal.div, hb0]
      have hab : 0 ≤ a / b := div_nonneg ha hb
      have h1 : (0 : ℚ) < 1 + a / b := by linarith
      have hppos : (0 : ℚ) < 100 / (1 + a / b) := div_pos (by norm_num) h1
      have hple : 100 / (1 + a / b) ≤ 100 := div_le_self (by norm_num) (by linarith)
      exact ⟨100 - 100 / (1 + a / b),
        by rw [← hfr, ← hdiv, hx, rsiOf_val _ hab], by linarith, by linarith⟩

/-- Helper for C4: wherever the rolling loss is a number, the rolling gain at
the same index is a nonnegative number (both windows become full at the same
index, because `where` has replaced the leading NaN delta by zero). -/
theorem gain_val_of_loss_val {closes : List ℚ} {i : ℕ} {b : ℚ}
    (h : (lossSeries closes).get? i = some (RVal.val b)) :
    ∃ a, (gainSeries closes).get? i = some (RVal.val a) ∧ 0 ≤ a := by
  have hi_l : i < (negSeries (whereLtZero (seriesDiff closes))).length := by
    have hlt : i < (lossSeries closes).length := by
      by_contra hge
      rw [List.get?_eq_none.mpr (le_of_not_lt hge)] at h
      exact Option.noConfusion h
    rwa [length_lossSeries, ← length_seriesDiff, ← length_whereLtZero,
      ← length_negSeries] at hlt
  have hi_g : i < (whereGtZero (seriesDiff closes)).length := by
    rw [length_whereGtZero]
    rw [length_negSeries, length_whereLtZero] at hi_l
    exact hi_l
  -- the loss entry is a number, so the window condition holds at `i`
  rw [lossSeries, rollingMean_get? window_length _ i hi_l] at h
  have h' := Option.some.inj h
  by_cases hw : window_length ≤ i + 1
  · have hga := rollingMean_get? window_length (whereGtZero (seriesDiff closes)) i hi_g
    rw [if_pos hw] at hga
    have hwl : window_length = 14 := rfl
    have hne : (((whereGtZero (seriesDiff closes)).drop
        (i + 1 - window_length)).take window_length) ≠ [] := by
      have hdrop : 0 < ((whereGtZero (seriesDiff closes)).drop
          (i + 1 - window_length)).length := by
        rw [List.length_drop]; omega
      rw [← List.length_pos, List.length_take]
      omega
    obtain ⟨a, hval, ha⟩ := windowMean_val hne (fun v hv =>
      whereGtZero_entries (List.mem_of_mem_drop (List.mem_of_mem_take hv)))
    exact ⟨a, by rw [gainSeries, hga, hval], ha⟩
  · rw [if_neg hw] at h'
    exact absurd h'.symm (by simp)

/-- C4 (amended): at every index where the rolling average loss is exactly 0,
the ratio `rs = gain / loss` is NaN only when the rolling gain is also 0
(the `0/0` case); when the gain is positive the ratio is `+inf` and the RSI is
the defined value 100.  In neither case does a division fault occur. -/
theorem c4_zero_loss_dichotomy (closes : List ℚ) (i : ℕ) (g : ℚ)
    (hg : (gainSeries closes).get? i = some (RVal.val g))
    (hl : (lossSeries closes).get? i = some (RVal.val 0)) :
    (rsSeries closes).get? i = some (if g = 0 then RVal.nan else RVal.inf) ∧
    (rsiSeries closes).get? i = some (if g = 0 then RVal.nan else RVal.val 100) := by
  have hge0 : 0 ≤ g := by
    rcases gainSeries_entries hg with hbad | ⟨q, hq, hq0⟩
    · exact absurd hbad (by simp)
    · rw [(RVal.val.injEq _ _).mp hq]; exact hq0
  have hrs : (rsSeries closes).get? i = some (RVal.div (RVal.val g) (RVal.val 0)) :=
    get?_zipWith_eq_some.mpr ⟨_, _, hg, hl, rfl⟩
  have hdiv : RVal.div (RVal.val g) (RVal.val 0) =
      (if g = 0 then RVal.nan else RVal.inf) := by
    by_cases hg0 : g = 0
    · simp [RVal.div, hg0]
    · have hgp : 0 < g := lt_of_le_of_ne hge0 (Ne.symm hg0)
      simp [RVal.div, hg0, hgp]
  refine ⟨by rw [hrs, hdiv], ?_⟩
  rw [rsiSeries, List.get?_map, hrs, Option.map_some', hdiv]
  by_cases hg0 : g = 0
  · simp [hg0, rsiOf_nan]
  · simp [hg0, rsiOf_inf]

/-- C4 (counterexample): on the strictly increasing closes 50,51,...,64, at
index 13 the rolling average loss is exactly 0, yet the ratio `rs` is `+inf`
(not NaN) and the RSI is the defined value 100 (not undefined), because the
rolling gain is positive there. -/
theorem c4_counterexample :
    (lossSeries [50, 51, 52, 53, 54, 55, 56, 57, 58, 59, 60, 61, 62, 63,
      64]).get? 13 = some (RVal.val 0) ∧
    (rsSeries [50, 51, 52, 53, 54, 55, 56, 57, 58, 59, 60, 61, 62, 63,
      64]).get? 13 = some RVal.inf ∧
    (rsiSeries [50, 51, 52, 53, 54, 55, 56, 57, 58, 59, 60, 61, 62, 63,
      64]).get? 13 = some (RVal.val 100) := by decide

/-- C8 (amended): for every nonempty candle close sequence of length strictly
less than 14, the most recent RSI value is NaN (undefined): the rolling
windows are still incomplete at the last index. -/
theorem c8_short_history_latest_rsi_undefined (closes : List ℚ)
    (hne : closes ≠ []) (hlen : closes.length < 14) :
    (rsiSeries closes).getLast? = some RVal.nan := by
  have hpos : 0 < closes.length := List.length_pos.mpr hne
  set i := closes.length - 1 with hi
  have hi_g : i < (whereGtZero (seriesDiff closes)).length := by
    rw [length_whereGtZero, length_seriesDiff]; omega
  have hi_l : i < (negSeries (whereLtZero (seriesDiff closes))).length := by
    rw [length_negSeries, length_whereLtZero, length_seriesDiff]; omega
  have hw : ¬ (window_length ≤ i + 1) := by
    have hwl : window_length = 14 := rfl
    omega
  have hg : (gainSeries closes).get? i = some RVal.nan := by
    rw [gainSeries, rollingMean_get? _ _ _ hi_g, if_neg hw]
  have hl : (lossSeries closes).get? i = some RVal.nan := by
    rw [lossSeries, rollingMean_get? _ _ _ hi_l, if_neg hw]
  have hrs : (rsSeries closes).get? i = some RVal.nan := by
    have hz : (rsSeries closes).get? i = some (RVal.div RVal.nan RVal.nan) :=
      get?_zipWith_eq_some.mpr ⟨_, _, hg, hl, rfl⟩
    rw [div_nan_left] at hz
    exact hz
  have hrsi : (rsiSeries closes).get? i = some RVal.nan := by
    rw [rsiSeries, List.get?_map, hrs, Option.map_some', rsiOf_nan]
  rw [List.getLast?_eq_get?, length_rsiSeries]
  exact hrsi

/-- C8 (counterexample): a candle sequence of length 14 — strictly less than
15 — already has a defined most recent RSI (here 100), because pandas `where`
turns the leading NaN delta into a zero gain/loss, completing the first
rolling window at the 14th candle. -/
theorem c8_counterexample :
    ([200, 201, 202, 203, 204, 205, 206, 207, 208, 209, 210, 211, 212,
      213] : List ℚ).length = 14 ∧
    (rsiSeries [200, 201, 202, 203, 204, 205, 206, 207, 208, 209, 210, 211,
      212, 213]).getLast? = some (RVal.val 100) := by
  constructor
  · rfl
  · decide

/-! ### The recommendation (lines 160-166) -/

/-- The three possible recommendation texts (COMPRAR / VENDER / RETER). -/
inductive Recommendation where
  | buy : Recommendation
  | sell : Recommendation
  | hold : Recommendation
deriving DecidableEq, Repr

/-- Embedding of `Series.mean()` with its default `skipna=True`: NaN entries
are dropped and the remaining values averaged; an all-NaN (or empty) series
has mean NaN. -/
def seriesMean (xs : List RVal) : RVal :=
  let vs := xs.filterMap (fun v => match v with
    | RVal.val q => some q
    | _ => none)
  match vs with
  | [] => RVal.nan
  | _ => RVal.val (vs.sum / (vs.length : ℚ))

/-- Embedding of the recommendation decision (lines 160-166):
`forecast.diff().mean() > 0 and forecast.iloc[-1] < recent_moving_avg` gives
BUY, the mirrored conditions give SELL, everything else HOLD.
`forecast.iloc[-1]` assumes a nonempty forecast; the default 0 of `getLastD`
is never reached on the 8-point forecasts the pipeline produces. -/
def recommendation (forecast : List ℚ) (recent_moving_avg : ℚ) : Recommendation :=
  if (seriesMean (seriesDiff forecast)).bgt (RVal.val 0)
      && decide (forecast.getLastD 0 < recent_moving_avg) then
    Recommendation.buy
  else if (seriesMean (seriesDiff forecast)).blt (RVal.val 0)
      && decide (recent_moving_avg < forecast.getLastD 0) then
    Recommendation.sell
  else
    Recommendation.hold

/-- Spec-side definition (§4.4): the mean of the successive differences of a
forecast series, as a rational number. -/
def specMeanDiff (f : List ℚ) : ℚ := (qdiffs f).sum / ((qdiffs f).length : ℚ)

theorem filterMap_val_map_val (l : List ℚ) :
    (l.map RVal.val).filterMap (fun v => match v with
      | RVal.val q => some q
      | _ => none) = l := by
  induction l with
  | nil => rfl
  | cons x t ih => simp [List.filterMap_cons, ih]

theorem seriesMean_seriesDiff {f : List ℚ} (h2 : 2 ≤ f.length) :
    seriesMean (seriesDiff f) = RVal.val (specMeanDiff f) := by
  cases f with
  | nil => simp at h2
  | cons x xs =>
    have hq : qdiffs (x :: xs) ≠ [] := by
      have : (qdiffs (x :: xs)).length = xs.length := by
        simp [length_qdiffs]
      intro hnil
      rw [hnil] at this
      simp at this
      simp at h2
      omega
    rw [seriesDiff, seriesMean]
    simp only [List.filterMap_cons]
    rw [filterMap_val_map_val]
    cases hq' : qdiffs (x :: xs) with
    | nil => exact absurd hq' hq
    | cons d ds => rw [specMeanDiff, hq']

/-- C1: the recommendation is BUY exactly when the mean of successive
differences of the 8 forecast points is strictly positive and the final
forecast point is strictly below the recent moving average; SELL exactly in
the mirrored situation; HOLD in every other case (in particular when the mean
trend is zero).  By construction the result is always one of the three. -/
theorem c1_recommendation_iff (f : List ℚ) (ma : ℚ) (h8 : f.length = 8) :
    (recommendation f ma = Recommendation.buy ↔
      (0 < specMeanDiff f ∧ f.getLastD 0 < ma)) ∧
    (recommendation f ma = Recommendation.sell ↔
      (specMeanDiff f < 0 ∧ ma < f.getLastD 0)) ∧
    (recommendation f ma = Recommendation.hold ↔
      (¬(0 < specMeanDiff f ∧ f.getLastD 0 < ma) ∧
       ¬(specMeanDiff f < 0 ∧ ma < f.getLastD 0))) := by
  have hmean := seriesMean_seriesDiff (f := f) (by omega)
  rw [recommendation, hmean]
  simp only [RVal.bgt, RVal.blt, Bool.and_eq_true, decide_eq_true_eq]
  split_ifs with hb hs
  · exact ⟨iff_of_true rfl hb,
      iff_of_false (by simp) (by rintro ⟨h3, _⟩; linarith [hb.1]),
      iff_of_false (by simp) (by rintro ⟨hn, _⟩; exact hn hb)⟩
  · exact ⟨iff_of_false (by simp) hb,
      iff_of_true rfl hs,
      iff_of_false (by simp) (by rintro ⟨_, hn⟩; exact hn hs)⟩
  · exact ⟨iff_of_false (by simp) hb,
      iff_of_false (by simp) hs,
      iff_of_true rfl ⟨hb, hs⟩⟩

/-- C1 witness: a flat 8-point forecast has zero mean difference, so the
recommendation is HOLD. -/
theorem c1_witness :
    recommendation [1, 1, 1, 1, 1, 1, 1, 1] 0 = Recommendation.hold :=
  (c1_recommendation_iff [1, 1, 1, 1, 1, 1, 1, 1] 0 rfl).2.2.mpr (by decide)

theorem qdiffs_sum (x : ℚ) (xs : List ℚ) :
    (qdiffs (x :: xs)).sum = (x :: xs).getLastD 0 - x := by
  induction xs generalizing x with
  | nil => simp [qdiffs]
  | cons y t ih =>
    have hstep : qdiffs (x :: y :: t) = (y - x) :: qdiffs (y :: t) := rfl
    rw [hstep, List.sum_cons, ih y]
    simp only [List.getLastD_cons]
    ring

/-- C10: on an 8-point forecast the mean of successive differences telescopes
to `(f[7] - f[0]) / 7`, so its sign depends only on the first and last
forecast values. -/
theorem c10_mean_diff_telescopes (f : List ℚ) (h8 : f.length = 8) :
    specMeanDiff f = (f.getLastD 0 - f.headD 0) / 7 ∧
    (0 < specMeanDiff f ↔ f.headD 0 < f.getLastD 0) ∧
    (specMeanDiff f < 0 ↔ f.getLastD 0 < f.headD 0) := by
  cases f with
  | nil => simp at h8
  | cons x xs =>
    have hxs : xs.length = 7 := by simpa using h8
    have hlen : (qdiffs (x :: xs)).length = 7 := by
      rw [length_qdiffs]
      simp [hxs]
    have hmd : specMeanDiff (x :: xs) = ((x :: xs).getLastD 0 - x) / 7 := by
      rw [specMeanDiff, qdiffs_sum, hlen]
      norm_num
    have h7 : (0 : ℚ) < 7 := by norm_num
    refine ⟨by simpa using hmd, ?_, ?_⟩
    · rw [hmd, lt_div_iff h7]
      constructor <;> intro h <;> simp at h ⊢ <;> linarith
    · rw [hmd, div_lt_iff h7]
      constructor <;> intro h <;> simp at h ⊢ <;> linarith

/-- C10 witness: the telescoped mean on the concrete forecast 0,1,...,7. -/
theorem c10_witness :
    specMeanDiff [0, 1, 2, 3, 4, 5, 6, 7] =
      (([0, 1, 2, 3, 4, 5, 6, 7] : List ℚ).getLastD 0 -
        ([0, 1, 2, 3, 4, 5, 6, 7] : List ℚ).headD 0) / 7 ∧
    (0 < specMeanDiff [0, 1, 2, 3, 4, 5, 6, 7] ↔
      ([0, 1, 2, 3, 4, 5, 6, 7] : List ℚ).headD 0 <
        ([0, 1, 2, 3, 4, 5, 6, 7] : List ℚ).getLastD 0) ∧
    (specMeanDiff [0, 1, 2, 3, 4, 5, 6, 7] < 0 ↔
      ([0, 1, 2, 3, 4, 5, 6, 7] : List ℚ).getLastD 0 <
        ([0, 1, 2, 3, 4, 5, 6, 7] : List ℚ).headD 0) :=
  c10_mean_diff_telescopes [0, 1, 2, 3, 4, 5, 6, 7] rfl

/-! ### Price samples and 15-minute OHLC resampling (lines 58-77) -/

/-- A raw price sample from the provider: timestamp (in minutes, after the
millisecond conversion and the fixed GMT-3 shift of line 61) and USD price. -/
structure Sample where
  t : ℕ
  price : ℚ
deriving DecidableEq, Repr

/-- A 15-minute OHLC candle; `op`/`hi`/`lo`/`cl` stand for the `open`,
`high`, `low` and `close` columns. -/
structure Candle where
  start : ℕ
  op : ℚ
  hi : ℚ
  lo : ℚ
  cl : ℚ
deriving DecidableEq, Repr

/-- Interval start of the 15-minute bucket containing minute `t`. -/
def bucketOf (t : ℕ) : ℕ := 15 * (t / 15)

/-- The samples that fall in a given bucket, in input order. -/
def samplesInBucket (samples : List Sample) (b : ℕ) : List Sample :=
  samples.filter (fun s => bucketOf s.t == b)

/-- OHLC aggregation of one bucket, `agg` with `first`/`max`/`min`/`last`
(lines 71-76): `none` stands for the all-NaN row of an empty bucket, which
`dropna` removes. -/
def aggBucket (samples : List Sample) (b : ℕ) : Option Candle :=
  match samplesInBucket samples b with
  | [] => none
  | s :: rest => some
      { start := b
        op := s.price
        hi := rest.foldl (fun m x => max m x.price) s.price
        lo := rest.foldl (fun m x => min m x.price) s.price
        cl := (rest.getLastD s).price }

/-- All 15-minute buckets from the first sampled bucket to the last:
`resample` emits one row per bucket of the sampled range, including the
empty ones. -/
def allBuckets (samples : List Sample) : List ℕ :=
  match samples.map (fun s => bucketOf s.t) with
  | [] => []
  | b :: bs =>
    (List.range (((bs.foldl max b) - (bs.foldl min b)) / 15 + 1)).map
      (fun k => bs.foldl min b + 15 * k)

/-- Embedding of lines 71-77: 15-minute resampling with OHLC aggregation
followed by `dropna`. -/
def resampleOhlc (samples : List Sample) : List Candle :=
  (allBuckets samples).filterMap (aggBucket samples)

theorem aggBucket_start {samples : List Sample} {b : ℕ} {c : Candle}
    (h : aggBucket samples b = some c) : c.start = b := by
  rw [aggBucket] at h
  cases hs : samplesInBucket samples b with
  | nil => rw [hs] at h; exact Option.noConfusion h
  | cons s rest =>
    rw [hs] at h
    injection h with h'
    rw [← h']

theorem map_start_filterMap_sublist (samples : List Sample) :
    ∀ bs : List ℕ,
      ((bs.filterMap (aggBucket samples)).map Candle.start).Sublist bs := by
  intro bs
  induction bs with
  | nil => simp
  | cons b t ih =>
    rw [List.filterMap_cons]
    cases hab : aggBucket samples b with
    | none => exact ih.cons b
    | some c =>
      rw [List.map_cons, aggBucket_start hab]
      exact ih.cons₂ b

theorem allBuckets_pairwise (samples : List Sample) :
    (allBuckets samples).Pairwise (· < ·) := by
  rw [allBuckets]
  cases samples.map (fun s => bucketOf s.t) with
  | nil => simp
  | cons b bs =>
    refine List.Pairwise.map _ ?_ (List.pairwise_lt_range _)
    intro a a' haa'
    omega

/-- C7: the aggregator's candles have pairwise-distinct, strictly increasing
interval starts, and every output candle's bucket holds at least one input
sample — empty buckets are dropped, never interpolated or forward-filled. -/
theorem c7_aggregator_invariants (samples : List Sample) :
    ((resampleOhlc samples).map Candle.start).Pairwise (· < ·) ∧
    ∀ c ∈ resampleOhlc samples, ∃ s ∈ samples, bucketOf s.t = c.start := by
  constructor
  · exact List.Pairwise.sublist (map_start_filterMap_sublist samples (allBuckets samples))
      (allBuckets_pairwise samples)
  · intro c hc
    rw [resampleOhlc, List.mem_filterMap] at hc
    obtain ⟨b, _, hab⟩ := hc
    have hstart := aggBucket_start hab
    rw [aggBucket] at hab
    cases hs : samplesInBucket samples b with
    | nil => rw [hs] at hab; exact Option.noConfusion hab
    | cons s rest =>
      have hmem : s ∈ samplesInBucket samples b := by rw [hs]; simp
      rw [samplesInBucket, List.mem_filter] at hmem
      refine ⟨s, hmem.1, ?_⟩
      have hbeq : bucketOf s.t = b := by simpa using hmem.2
      rw [hbeq, hstart]

/-! ### Forecast timestamps (lines 91-104) -/

/-- Number of forecast steps (line 96). -/
def forecast_steps : ℕ := 8

/-- The ARIMA training window, `ohlc.iloc[-96:]` (line 91): the last 96
candles, or all of them when fewer exist. -/
def trainingData (ohlc : List Candle) : List Candle :=
  ohlc.drop (ohlc.length - 96)

/-- Embedding of line 98: the timestamps of the 8 forecast points are
synthesized as `training_data.index[-1] + timedelta(minutes=15 * i)` for
`i = 1..8`; the estimator plays no part in them. -/
def futureTimestamps (trainingIndex : List ℕ) : List ℕ :=
  (List.range forecast_steps).map
    (fun i => trainingIndex.getLastD 0 + 15 * (i + 1))

/-- Embedding of lines 101-104: the forecast frame pairs the synthesized
timestamps with the estimator's forecast values. -/
def future_df (training : List Candle) (forecast : List ℚ) : List (ℕ × ℚ) :=
  (futureTimestamps (training.map Candle.start)).zip forecast

theorem getLastD_drop {α : Type} :
    ∀ (l : List α) (k : ℕ) (d : α), k < l.length →
      (l.drop k).getLastD d = l.getLastD d := by
  intro l
  induction l with
  | nil => intro k d h; simp at h
  | cons x xs ih =>
    intro k d h
    cases k with
    | zero => rfl
    | succ j =>
      have hj : j < xs.length := by simpa using h
      rw [List.drop_succ_cons, ih j d hj, List.getLastD_cons]
      cases xs with
      | nil => simp at hj
      | cons y t => rw [List.getLastD_cons, List.getLastD_cons]

/-- C6: on every nonempty candle history the forecast frame has exactly 8
rows, the k-th (0-based) timestamp is the last observed candle's interval
start plus `15 * (k+1)` minutes, and the timestamps do not depend on the
estimator's forecast values — they are synthesized by the pipeline. -/
theorem c6_forecast_timestamps (ohlc : List Candle) (f f' : List ℚ)
    (hne : ohlc ≠ []) (h8 : f.length = 8) (h8' : f'.length = 8) :
    (future_df (trainingData ohlc) f).length = 8 ∧
    (∀ k, k < 8 →
      ((future_df (trainingData ohlc) f).map Prod.fst).get? k =
        some ((ohlc.map Candle.start).getLastD 0 + 15 * (k + 1))) ∧
    (future_df (trainingData ohlc) f).map Prod.fst =
      (future_df (trainingData ohlc) f').map Prod.fst := by
  have hlen_ft : ∀ idx : List ℕ, (futureTimestamps idx).length = 8 := by
    intro idx; simp [futureTimestamps, forecast_steps]
  have hmap : ∀ g : List ℚ, g.length = 8 →
      (future_df (trainingData ohlc) g).map Prod.fst =
        futureTimestamps ((trainingData ohlc).map Candle.start) := by
    intro g hg
    rw [future_df]
    exact List.map_fst_zip _ _ (by rw [hlen_ft, hg])
  have hlast : ((trainingData ohlc).map Candle.start).getLastD 0 =
      (ohlc.map Candle.start).getLastD 0 := by
    have hk : ohlc.length - 96 < ohlc.length := by
      have hpos : 0 < ohlc.length := List.length_pos.mpr hne
      omega
    rw [trainingData, List.map_drop]
    exact getLastD_drop _ _ _ (by rw [List.length_map]; exact hk)
  refine ⟨?_, ?_, (hmap f h8).trans (hmap f' h8').symm⟩
  · rw [future_df, List.length_zip, hlen_ft, h8]
    simp
  · intro k hk
    rw [hmap f h8, futureTimestamps, List.get?_map,
      List.get?_range (by simpa [forecast_steps] using hk), Option.map_some',
      hlast]

/-- C6 witness: a one-candle history starting at minute 0 with a flat
forecast. -/
theorem c6_witness :
    (future_df (trainingData [⟨0, 1, 1, 1, 1⟩]) [2, 2, 2, 2, 2, 2, 2, 2]).length = 8 ∧
    (∀ k, k < 8 →
      ((future_df (trainingData [⟨0, 1, 1, 1, 1⟩]) [2, 2, 2, 2, 2, 2, 2, 2]).map
          Prod.fst).get? k =
        some ((([⟨0, 1, 1, 1, 1⟩] : List Candle).map Candle.start).getLastD 0 +
          15 * (k + 1))) ∧
    (future_df (trainingData [⟨0, 1, 1, 1, 1⟩]) [2, 2, 2, 2, 2, 2, 2, 2]).map
        Prod.fst =
      (future_df (trainingData [⟨0, 1, 1, 1, 1⟩]) [3, 3, 3, 3, 3, 3, 3, 3]).map
        Prod.fst :=
  c6_forecast_timestamps [⟨0, 1, 1, 1, 1⟩] [2, 2, 2, 2, 2, 2, 2, 2]
    [3, 3, 3, 3, 3, 3, 3, 3] (by simp) rfl rfl

/-! ### Peak forecast (lines 110-111) -/

/-- Embedding of `Series.max()` (line 110): fold of the binary maximum over
the values; `none` models the NaN of an empty series. -/
def seriesMaxQ (l : List ℚ) : Option ℚ :=
  match l with
  | [] => none
  | x :: xs => some (xs.foldl max x)

/-- Embedding of `Series.idxmax()` (line 111): scan that replaces the running
best only on a strictly greater value, so ties keep the earliest row;
`none` models the `ValueError` raised on an empty series. -/
def idxmax (pairs : List (ℕ × ℚ)) : Option (ℕ × ℚ) :=
  match pairs with
  | [] => none
  | x :: xs => some (xs.foldl (fun best p => if best.2 < p.2 then p else best) x)

theorem foldl_argmax_spec (x : ℕ × ℚ) (xs : List (ℕ × ℚ)) :
    (∀ q ∈ x :: xs,
      q.2 ≤ (xs.foldl (fun best p => if best.2 < p.2 then p else best) x).2) ∧
    ∃ l1 l2,
      x :: xs =
        l1 ++ (xs.foldl (fun best p => if best.2 < p.2 then p else best) x) :: l2 ∧
      ∀ q ∈ l1,
        q.2 < (xs.foldl (fun best p => if best.2 < p.2 then p else best) x).2 := by
  induction xs generalizing x with
  | nil =>
    refine ⟨?_, [], [], rfl, by simp⟩
    intro q hq
    rw [List.mem_singleton] at hq
    rw [hq]
    exact le_refl _
  | cons y ys ih =>
    rw [List.foldl_cons]
    by_cases hxy : x.2 < y.2
    · rw [if_pos hxy]
      obtain ⟨hmax, l1, l2, hdecomp, hstrict⟩ := ih y
      refine ⟨?_, x :: l1, l2, by rw [List.cons_append, ← hdecomp], ?_⟩
      · intro q hq
        rcases List.mem_cons.mp hq with rfl | hq'
        · exact le_of_lt (lt_of_lt_of_le hxy (hmax y (by simp)))
        · exact hmax q hq'
      · intro q hq
        rcases List.mem_cons.mp hq with rfl | hq'
        · exact lt_of_lt_of_le hxy (hmax y (by simp))
        · exact hstrict q hq'
    · rw [if_neg hxy]
      push_neg at hxy
      obtain ⟨hmax, l1, l2, hdecomp, hstrict⟩ := ih x
      cases l1 with
      | nil =>
        rw [List.nil_append] at hdecomp
        have hx := (List.cons.injEq _ _ _ _).mp hdecomp
        refine ⟨?_, [], y :: ys, by rw [List.nil_append, ← hx.1], by simp⟩
        intro q hq
        rcases List.mem_cons.mp hq with rfl | hq'
        · exact hmax q (by simp)
        · rcases List.mem_cons.mp hq' with rfl | hq''
          · exact le_trans hxy (hmax x (by simp))
          · exact hmax q (by simp [hq''])
      | cons a l1' =>
        rw [List.cons_append] at hdecomp
        have ha := (List.cons.injEq _ _ _ _).mp hdecomp
        refine ⟨?_, x :: y :: l1', l2, ?_, ?_⟩
        · intro q hq
          rcases List.mem_cons.mp hq with rfl | hq'
          · exact hmax q (by simp)
          · rcases List.mem_cons.mp hq' with rfl | hq''
            · exact le_trans hxy (hmax x (by simp))
            · exact hmax q (by simp [hq''])
        · rw [List.cons_append, List.cons_append, ← ha.2]
        · intro q hq
          have hxstrict : x.2 <
              (ys.foldl (fun best p => if best.2 < p.2 then p else best) x).2 := by
            have := hstrict a (by simp)
            rw [← ha.1] at this
            exact this
          rcases List.mem_cons.mp hq with rfl | hq'
          · exact hxstrict
          · rcases List.mem_cons.mp hq' with rfl | hq''
            · exact lt_of_le_of_lt hxy hxstrict
            · exact hstrict q (by simp [hq''])

theorem foldl_max_eq_argmax_val (xs : List (ℕ × ℚ)) :
    ∀ x : ℕ × ℚ,
      (xs.foldl (fun best p => if best.2 < p.2 then p else best) x).2 =
        (xs.map Prod.snd).foldl max x.2 := by
  induction xs with
  | nil => intro x; rfl
  | cons y ys ih =>
    intro x
    rw [List.foldl_cons, List.map_cons, List.foldl_cons, ih]
    congr 1
    by_cases hxy : x.2 < y.2
    · rw [if_pos hxy]; exact (max_eq_right (le_of_lt hxy)).symm
    · rw [if_neg hxy]; exact (max_eq_left (le_of_not_lt hxy)).symm

/-- C9: on every 8-point forecast the peak callout's value is the maximum of
the 8 predicted closes, and its timestamp belongs to the first row attaining
that maximum: every earlier row of the forecast frame has a strictly smaller
predicted close. -/
theorem c9_peak_forecast (training : List Candle) (forecast : List ℚ)
    (h8 : forecast.length = 8) :
    ∃ t v, idxmax (future_df training forecast) = some (t, v) ∧
      seriesMaxQ forecast = some v ∧
      ∃ l1 l2, future_df training forecast = l1 ++ (t, v) :: l2 ∧
        ∀ q ∈ l1, q.2 < v := by
  have hlen : (future_df training forecast).length = 8 := by
    rw [future_df, List.length_zip]
    simp [futureTimestamps, forecast_steps, h8]
  have hsnd : (future_df training forecast).map Prod.snd = forecast := by
    rw [future_df]
    exact List.map_snd_zip _ _ (by simp [futureTimestamps, forecast_steps, h8])
  cases hfd : future_df training forecast with
  | nil => rw [hfd] at hlen; simp at hlen
  | cons x xs =>
    obtain ⟨hmax, l1, l2, hdecomp, hstrict⟩ := foldl_argmax_spec x xs
    refine ⟨(xs.foldl (fun best p => if best.2 < p.2 then p else best) x).1,
      (xs.foldl (fun best p => if best.2 < p.2 then p else best) x).2,
      ?_, ?_, l1, l2, ?_, hstrict⟩
    · rw [idxmax]
    · rw [← hsnd, hfd, List.map_cons, seriesMaxQ, foldl_max_eq_argmax_val]
    · rw [Prod.mk.eta]
      exact hdecomp

/-- C9 witness: the forecast 1,3,2,3,0,0,0,0 peaks at 3, first attained by
the second forecast point. -/
theorem c9_witness :
    ∃ t v, idxmax (future_df [] [1, 3, 2, 3, 0, 0, 0, 0]) = some (t, v) ∧
      seriesMaxQ [1, 3, 2, 3, 0, 0, 0, 0] = some v ∧
      ∃ l1 l2, future_df [] [1, 3, 2, 3, 0, 0, 0, 0] = l1 ++ (t, v) :: l2 ∧
        ∀ q ∈ l1, q.2 < v :=
  c9_peak_forecast [] [1, 3, 2, 3, 0, 0, 0, 0] rfl

/-! ### The full run and its failure behaviour (C2) -/

/-- The recent moving average `ohlc["close"].iloc[-4:].mean()` (line 160). -/
def recentMovingAvg (ohlc : List Candle) : ℚ :=
  ((ohlc.map Candle.cl).drop (ohlc.length - 4)).sum /
    (((ohlc.map Candle.cl).drop (ohlc.length - 4)).length : ℚ)

/-- Everything the Presenter renders for one run: the three charts and the two
markdown callouts are drawn exactly from these fields. -/
structure PipelineOutput where
  ohlc : List Candle
  latest_rsi : RVal
  futureDf : List (ℕ × ℚ)
  max_future_price : ℚ
  max_future_time : ℕ
  recommendation : Recommendation
deriving DecidableEq, Repr

/-- Embedding of one full run (lines 58-166) for a selected coin.  The
stages that can raise in Python become `Except.error` carrying the library's
message: `.iloc[-1]` on the empty RSI column raises `IndexError`, `idxmax`
on an empty forecast raises `ValueError`.  The script installs no handler, so
an error aborts the run before any chart is rendered.  The ARIMA estimator is
the opaque `forecastFn` parameter; the selected coin name is received (it
appears in the spinner text of line 50) but never reaches any error path. -/
def runPipeline (_coinName : String) (forecastFn : List ℚ → List ℚ)
    (prices : List Sample) : Except String PipelineOutput :=
  let ohlc := resampleOhlc prices
  match (rsiSeries (ohlc.map Candle.cl)).getLast? with
  | none => Except.error "IndexError: single positional indexer is out-of-bounds"
  | some latest =>
    let training := trainingData ohlc
    let forecast := forecastFn (training.map Candle.cl)
    let fdf := future_df training forecast
    match seriesMaxQ (fdf.map Prod.snd), idxmax fdf with
    | some mp, some mt =>
      Except.ok
        { ohlc := ohlc
          latest_rsi := latest
          futureDf := fdf
          max_future_price := mp
          max_future_time := mt.1
          recommendation := recommendation forecast (recentMovingAvg ohlc) }
    | _, _ => Except.error "ValueError: attempt to get argmax of an empty sequence"

/-- A message mentions a coin when the coin's name occurs in it as a
contiguous substring. -/
def mentionsCoin (msg coin : String) : Prop :=
  ∃ pre post : List Char, msg.toList = pre ++ coin.toList ++ post

/-- C2 (counterexample): for the selected coin Bitcoin and an empty price
list, the run does abort with an error (so no chart is produced), but the
error is the generic pandas `IndexError` raised far from the fetch stage, and
the selected coin's name occurs nowhere in it. -/
theorem c2_counterexample :
    runPipeline "Bitcoin" (fun _ => []) [] =
      Except.error "IndexError: single positional indexer is out-of-bounds" ∧
    ¬ mentionsCoin "IndexError: single positional indexer is out-of-bounds"
        "Bitcoin" := by
  constructor
  · rfl
  · rintro ⟨pre, post, h⟩
    have hB : 'B' ∈
        "IndexError: single positional indexer is out-of-bounds".toList := by
      rw [h]
      have : 'B' ∈ "Bitcoin".toList := by decide
      simp [this]
    revert hB
    decide

/-- C2 (amended): whatever the selected coin and whatever the estimator, an
empty price list makes the run abort with the same constant, coin-independent
`IndexError` message — no chart is produced, but the error identifies neither
the selected coin nor the underlying cause. -/
theorem c2_empty_prices_generic_error (coin : String)
    (forecastFn : List ℚ → List ℚ) :
    runPipeline coin forecastFn [] =
      Except.error "IndexError: single positional indexer is out-of-bounds" := rfl

/-- C4 witness: the zero-loss dichotomy applied at index 14 of the increasing
closes 7,8,...,21, where the rolling gain is exactly 1. -/
theorem c4_witness :
    (rsSeries [7, 8, 9, 10, 11, 12, 13, 14, 15, 16, 17, 18, 19, 20,
      21]).get? 14 = some (if (1 : ℚ) = 0 then RVal.nan else RVal.inf) ∧
    (rsiSeries [7, 8, 9, 10, 11, 12, 13, 14, 15, 16, 17, 18, 19, 20,
      21]).get? 14 = some (if (1 : ℚ) = 0 then RVal.nan else RVal.val 100) :=
  c4_zero_loss_dichotomy
    [7, 8, 9, 10, 11, 12, 13, 14, 15, 16, 17, 18, 19, 20, 21] 14 1
    (by decide) (by decide)

/-- C5 witness: the bound applied to the defined RSI value 100 at index 15 of
the increasing closes 10,11,...,25. -/
theorem c5_witness :
    RVal.val 100 = RVal.nan ∨
      ∃ q, RVal.val 100 = RVal.val q ∧ 0 ≤ q ∧ q ≤ 100 :=
  c5_rsi_defined_in_range
    [10, 11, 12, 13, 14, 15, 16, 17, 18, 19, 20, 21, 22, 23, 24, 25] 15
    (RVal.val 100) (by decide)

/-- C8 witness (of the amended statement): a single-candle history has an
undefined latest RSI. -/
theorem c8_witness : (rsiSeries [5]).getLast? = some RVal.nan :=
  c8_short_history_latest_rsi_undefined [5] (by decide) (by decide)
